import Mathlib

/-!
# parallel-mil: sequential and OpenMP variants of min/max reduction and selection sort

Shallow embedding of `task2/main.cpp` (`findMinMaxSequential`, `findMinMaxParallel`) and
`task3/main.cpp` (`selectionSortSequential`, `selectionSortParallel`, `isSorted`).

Modelling conventions.

* A `vector<int>` is a `List Int`.  The elements of a real vector are 32-bit `int`s; the
  code only compares and copies them, so no arithmetic on elements can overflow.  Where the
  range of `int` matters (the identity elements of the OpenMP `min`/`max` reductions) it is
  stated as `IsIntVec`.
* `int n = arr.size()` converts a `size_t` to `int`: `sizeToInt` keeps the value modulo
  `2 ^ 32` as a signed 32-bit integer, so `n` is the size only up to `INT_MAX` elements.
  `n - 1` is the integer `n - 1`, so it is `-1` for the empty vector (for `n = INT_MIN`, where
  the subtraction would overflow, this means that no iteration runs).
* The counter of `for (int i = a; i < arr.size(); i++)` is an `int` compared as `size_t`.  It
  reaches `arr.size()` before the loop is left, so beyond `INT_MAX` elements the increment
  overflows; `counterValues` gives the iterations, or `none` for that undefined run.
* A counted loop `for (int j = a; j < b; j++)` whose body changes neither `j` nor `b` is a
  left fold over the list of the values `j` takes.
* An OpenMP work-shared loop is described by the list of the index lists handed to each
  thread (a thread with nothing to do has the empty list).  Private variables are folded per
  thread; the critical sections are executed one thread after another, in the order in which
  the threads are listed.  Quantifying over all such lists covers every team size, every
  assignment of iterations and every order of entry into the critical section.
* Reads of the sorts are always in bounds and are written `arr.getD j 0`.  In the min/max
  reduction and in `isSorted` a read is `arr[j]?`, so a read outside the vector is visible
  in the result.
* The loop of `isSorted` takes a step budget of `arr.size() + 1`; `isSorted_of_ne_nil` and
  `isSorted_empty_reads_out_of_bounds` show that the budget is never used up.
-/

namespace ParallelMil

/-! ## task3/main.cpp : selection sort -/

/-- The conversion of the `size_t` value of `arr.size()` in `int n = arr.size();`: the value
modulo `2 ^ 32`, read as a signed 32-bit integer. -/
def sizeToInt (size : Nat) : Int :=
  (((size + 2147483648) % 4294967296 : Nat) : Int) - 2147483648

/-- The statement `swap(arr[i], arr[m])`. -/
def swap (arr : List Int) (i m : Nat) : List Int :=
  (arr.set i (arr.getD m 0)).set m (arr.getD i 0)

/-- Values taken by `i` in `for (int i = 0; i < n - 1; i++)`; `n - 1` is a signed `int`. -/
def outerIndices (n : Int) : List Nat :=
  List.range (n - 1).toNat

/-- Values taken by `j` in `for (int j = i + 1; j < n; j++)`. -/
def innerIndices (i : Nat) (n : Int) : List Nat :=
  List.range' (i + 1) (n - ((i : Int) + 1)).toNat

/-- Inner loop of `selectionSortSequential`, started with `min_index`:
`if (arr[j] < arr[min_index]) min_index = j;` for every `j` of `js`. -/
def seqMinIndex (arr : List Int) (js : List Nat) (min_index : Nat) : Nat :=
  js.foldl (fun mi j => if arr.getD j 0 < arr.getD mi 0 then j else mi) min_index

/-- One iteration of the outer loop of `selectionSortSequential`. -/
def seqStep (n : Int) (arr : List Int) (i : Nat) : List Int :=
  let min_index := seqMinIndex arr (innerIndices i n) i
  if min_index ≠ i then swap arr i min_index else arr

/-- The function `selectionSortSequential`. -/
def selectionSortSequential (arr : List Int) : List Int :=
  let n : Int := sizeToInt arr.length
  (outerIndices n).foldl (seqStep n) arr

/-- What one thread does before the critical section: starting from
`(local_min_value, local_min_index) = (arr[i], i)` it runs
`if (arr[j] < local_min_value) { local_min_value = arr[j]; local_min_index = j; }`
over the iterations `js` it was given. -/
def localMin (arr : List Int) (i : Nat) (js : List Nat) : Int × Nat :=
  js.foldl (fun l j => if arr.getD j 0 < l.1 then (arr.getD j 0, j) else l) (arr.getD i 0, i)

/-- The critical section, entered with the thread's local pair `l` while the shared pair
`(global_min_value, global_min_index)` is `g`. -/
def critical (g l : Int × Nat) : Int × Nat :=
  if l.1 < g.1 then l else g

/-- The parallel region of outer step `i`: the shared pair starts at `(arr[i], i)`; the threads
of `team` (listed in the order in which they enter the critical section, each with its
iterations) merge their local pairs into it. -/
def globalMin (arr : List Int) (i : Nat) (team : List (List Nat)) : Int × Nat :=
  team.foldl (fun g js => critical g (localMin arr i js)) (arr.getD i 0, i)

/-- One iteration of the outer loop of `selectionSortParallel` run by `team`. -/
def parStep (arr : List Int) (i : Nat) (team : List (List Nat)) : List Int :=
  let global_min_index := (globalMin arr i team).2
  if global_min_index ≠ i then swap arr i global_min_index else arr

/-- The function `selectionSortParallel`; `sched i` is the team of outer step `i`. -/
def selectionSortParallel (sched : Nat → List (List Nat)) (arr : List Int) : List Int :=
  let n : Int := sizeToInt arr.length
  (outerIndices n).foldl (fun a i => parStep a i (sched i)) arr

/-- The work-sharing construct hands every iteration of the inner loop of step `i` to exactly
one thread of the team. -/
def ValidTeam (n : Int) (i : Nat) (team : List (List Nat)) : Prop :=
  team.flatten.Perm (innerIndices i n)

/-- Every outer step of a run on a vector of `n` elements has a valid team. -/
def ValidSchedule (n : Int) (sched : Nat → List (List Nat)) : Prop :=
  ∀ i ∈ outerIndices n, ValidTeam n i (sched i)

/-- The comparison `int i` against `size_t` and the subscript `arr[i]` convert `i` to the
64-bit unsigned `size_t`. -/
def SIZE_MOD : Nat := 2 ^ 64

/-- Conversion of an `int` to `size_t`. -/
def toSizeT (i : Int) : Nat :=
  (i % (SIZE_MOD : Int)).toNat

/-- Outcome of a run of `isSorted`: the returned `bool`, a read outside the vector, or an
exhausted step budget. -/
inductive Outcome where
  | value (b : Bool)
  | outOfBounds
  | outOfFuel
  deriving DecidableEq, Repr

/-- The loop `for (int i = ...; i < bound; i++) if (arr[i] > arr[i + 1]) return false;`
followed by `return true;`, where `bound` is the `size_t` value of `arr.size() - 1`. -/
def isSortedLoop (arr : List Int) (bound : Nat) : Nat → Int → Outcome
  | 0, _ => Outcome.outOfFuel
  | fuel + 1, i =>
    if toSizeT i < bound then
      match arr[toSizeT i]?, arr[toSizeT (i + 1)]? with
      | some a, some b =>
        if a > b then Outcome.value false else isSortedLoop arr bound fuel (i + 1)
      | _, _ => Outcome.outOfBounds
    else Outcome.value true

/-- The function `isSorted`; `arr.size() - 1` is computed in `size_t`, modulo `2 ^ 64`. -/
def isSorted (arr : List Int) : Outcome :=
  isSortedLoop arr ((arr.length + SIZE_MOD - 1) % SIZE_MOD) (arr.length + 1) 0

/-! ## task2/main.cpp : min/max reduction -/

/-- Largest `int`, the initial value of a private copy in `reduction(min:min_val)`. -/
def INT_MAX : Int := 2147483647

/-- Smallest `int`, the initial value of a private copy in `reduction(max:max_val)`. -/
def INT_MIN : Int := -2147483648

/-- The elements of a `vector<int>` are `int`s. -/
def IsIntVec (arr : List Int) : Prop :=
  ∀ x ∈ arr, INT_MIN ≤ x ∧ x ≤ INT_MAX

/-- Loop body shared by both variants, on the pair `(min_val, max_val)`:
`if (arr[i] < min_val) min_val = arr[i]; if (arr[i] > max_val) max_val = arr[i];`.
The read `arr[i]` fails outside the vector. -/
def minMaxBody (arr : List Int) (s : Int × Int) (i : Nat) : Option (Int × Int) :=
  match arr[i]? with
  | none => none
  | some v => some (if v < s.1 then v else s.1, if v > s.2 then v else s.2)

/-- The loop body run over the iterations `is`, in that order. -/
def minMaxScan (arr : List Int) : List Nat → Int × Int → Option (Int × Int)
  | [], s => some s
  | i :: is, s =>
    match minMaxBody arr s i with
    | none => none
    | some t => minMaxScan arr is t

/-- Iterations of `for (int i = start; i < size; i++)` with `size` a `size_t`: the counter
takes the values from `start` up to `size`, the last one only in the failing test.  When
`size` exceeds `INT_MAX` the increment overflows the `int` counter before the test can fail,
and the run is undefined: `none`. -/
def counterValues (start size : Nat) : Option (List Nat) :=
  if (size : Int) ≤ INT_MAX then some (List.range' start (size - start)) else none

/-- The function `findMinMaxSequential`, returning `(min_val, max_val)`; `none` is a run
that reads outside the vector or overflows the counter. -/
def findMinMaxSequential (arr : List Int) : Option (Int × Int) :=
  match arr[0]? with
  | none => none
  | some a0 =>
    match counterValues 1 arr.length with
    | none => none
    | some is => minMaxScan arr is (a0, a0)

/-- The work-sharing construct hands every iteration of `for (int i = 0; i < arr.size(); i++)`
to exactly one thread of the team. -/
def ValidPartition (arr : List Int) (team : List (List Nat)) : Prop :=
  match counterValues 0 arr.length with
  | some is => team.flatten.Perm is
  | none => False


/-! ## Predicates used in the statements -/

/-- The loop of `localMin` started from an arbitrary pair `l`. -/
def scanFrom (a : List Int) (js : List Nat) (l : Int × Nat) : Int × Nat :=
  js.foldl (fun l j => if a.getD j 0 < l.1 then (a.getD j 0, j) else l) l

/-- `m` is an index in `[i, a.length)` whose element is a minimum of `a[i..]`. -/
def IsMinIndex (a : List Int) (i m : Nat) : Prop :=
  i ≤ m ∧ m < a.length ∧ ∀ j, i ≤ j → j < a.length → a.getD m 0 ≤ a.getD j 0

/-- `m` is an index in `[i, N)` whose element is a minimum of `a[i..N)`. -/
def IsMinBelow (N : Nat) (a : List Int) (i m : Nat) : Prop :=
  i ≤ m ∧ m < N ∧ ∀ j, i ≤ j → j < N → a.getD m 0 ≤ a.getD j 0

/-- Within the first `N` positions, the elements before position `k` are in order and below
everything after them. -/
def SortedBelow (N k : Nat) (a : List Int) : Prop :=
  ∀ p q, p < k → p < q → q < N → a.getD p 0 ≤ a.getD q 0

/-- The list `r` is what a selection sort of the first `N` positions of `arr` leaves: a
permutation of `arr` with the first `N` positions in order and the others untouched. -/
def SortsPrefix (N : Nat) (arr r : List Int) : Prop :=
  r.length = arr.length ∧ r.Perm arr ∧ SortedBelow N (N - 1) r ∧
    ∀ j, N ≤ j → r.getD j 0 = arr.getD j 0

/-- A vector of 2147483650 elements that is not in order. -/
def hugeVector : List Int :=
  1 :: 0 :: List.replicate 2147483648 0

/-- Non-decreasing, as `isSorted` tests it: every adjacent pair is in order. -/
def NonDecreasing (a : List Int) : Prop :=
  ∀ k, k + 1 < a.length → a.getD k 0 ≤ a.getD (k + 1) 0

/-- The pair `r` is (minimum, maximum) of the elements of `arr`: both occur in `arr` and
bound every element. -/
def IsMinMax (arr : List Int) (r : Int × Int) : Prop :=
  r.1 ∈ arr ∧ r.2 ∈ arr ∧ ∀ x ∈ arr, r.1 ≤ x ∧ x ≤ r.2

instance decidableValidTeam (n : Int) (i : Nat) (team : List (List Nat)) :
    Decidable (ValidTeam n i team) := by
  unfold ValidTeam
  infer_instance

instance decidableValidSchedule (n : Int) (sched : Nat → List (List Nat)) :
    Decidable (ValidSchedule n sched) := by
  unfold ValidSchedule
  infer_instance

instance decidableValidPartition (arr : List Int) (team : List (List Nat)) :
    Decidable (ValidPartition arr team) := by
  unfold ValidPartition
  split <;> infer_instance

instance decidableIsIntVec (arr : List Int) : Decidable (IsIntVec arr) := by
  unfold IsIntVec
  infer_instance

instance decidableIsMinMax (arr : List Int) (r : Int × Int) : Decidable (IsMinMax arr r) := by
  unfold IsMinMax
  infer_instance

instance decidableIsMinIndex (a : List Int) (i m : Nat) : Decidable (IsMinIndex a i m) :=
  decidable_of_iff
    (i ≤ m ∧ m < a.length ∧ ∀ j < a.length, i ≤ j → a.getD m 0 ≤ a.getD j 0)
    ⟨fun h => ⟨h.1, h.2.1, fun j h1 h2 => h.2.2 j h2 h1⟩,
      fun h => ⟨h.1, h.2.1, fun j h1 h2 => h.2.2 j h2 h1⟩⟩

instance decidableNonDecreasing (a : List Int) : Decidable (NonDecreasing a) :=
  decidable_of_iff (∀ k < a.length - 1, a.getD k 0 ≤ a.getD (k + 1) 0)
    ⟨fun h k hk => h k (Nat.lt_sub_of_add_lt hk),
      fun h k hk => h k (Nat.add_lt_of_lt_sub hk)⟩

/-- A two-thread run on a three-element vector: at step `0` thread 1 (iteration `2`) enters
the critical section before thread 0 (iteration `1`); at step `1` thread 0 has no iteration. -/
def reversedEntry : Nat → List (List Nat) :=
  fun i => if i = 0 then [[2], [1]] else [[], [2]]

/-! # Theorems -/

/-! ## Lemmas on `swap` -/

theorem swap_length (a : List Int) (i m : Nat) : (swap a i m).length = a.length := by
  simp [swap]

theorem swap_getD (a : List Int) (i m k : Nat) (hi : i < a.length) (hm : m < a.length) :
    (swap a i m).getD k 0 =
      if k = m then a.getD i 0 else if k = i then a.getD m 0 else a.getD k 0 := by
  simp only [swap, List.getD_eq_getElem?_getD, List.getElem?_set, List.length_set]
  by_cases h1 : k = m
  · subst h1; simp [hm]
  · by_cases h2 : k = i
    · subst h2; simp [hi, h1, Ne.symm h1]
    · simp [h1, h2, Ne.symm h1, Ne.symm h2]

theorem swap_perm (a : List Int) (i m : Nat) (hi : i < a.length) (hm : m < a.length) :
    (swap a i m).Perm a := by
  rw [List.perm_iff_count]
  intro b
  have hi' : a.getD i 0 = a[i] := by simp [List.getD_eq_getElem?_getD, hi]
  have hm' : a.getD m 0 = a[m] := by simp [List.getD_eq_getElem?_getD, hm]
  have hci : a[i] = b → 1 ≤ a.count b := fun h =>
    List.count_pos_iff.mpr (h ▸ List.getElem_mem hi)
  unfold swap
  rw [hi', hm']
  rw [List.count_set _ _ _ _ (by simpa using hm), List.count_set _ _ _ _ hi, List.getElem_set]
  by_cases him : i = m
  · subst him
    by_cases hb : a[i] = b
    · have := hci hb
      simp only [hb, if_true, beq_self_eq_true]
      omega
    · simp [hb]
  · by_cases hb : a[i] = b
    · have := hci hb
      by_cases hb2 : a[m] = b
      · simp only [him, hb, hb2, if_true, if_false, beq_self_eq_true]
        omega
      · simp only [him, hb, hb2, if_true, if_false, beq_self_eq_true, beq_iff_eq]
        omega
    · by_cases hb2 : a[m] = b
      · simp [him, hb, hb2]
      · simp [him, hb, hb2]

/-! ## The scan of one thread and the merge in the critical section -/

theorem localMin_eq_scanFrom (a : List Int) (i : Nat) (js : List Nat) :
    localMin a i js = scanFrom a js (a.getD i 0, i) := rfl

theorem scanFrom_nil (a : List Int) (l : Int × Nat) : scanFrom a [] l = l := rfl

theorem scanFrom_cons (a : List Int) (j : Nat) (js : List Nat) (l : Int × Nat) :
    scanFrom a (j :: js) l
      = scanFrom a js (if a.getD j 0 < l.1 then (a.getD j 0, j) else l) := rfl

theorem scanFrom_append (a : List Int) (js ks : List Nat) (l : Int × Nat) :
    scanFrom a (js ++ ks) l = scanFrom a ks (scanFrom a js l) := by
  simp [scanFrom, List.foldl_append]

theorem scanFrom_le (a : List Int) (js : List Nat) (l : Int × Nat) :
    (scanFrom a js l).1 ≤ l.1 := by
  induction js generalizing l with
  | nil => simp [scanFrom_nil]
  | cons j js ih =>
    rw [scanFrom_cons]
    refine le_trans (ih _) ?_
    split
    · exact le_of_lt ‹_›
    · exact le_refl _

theorem scanFrom_spec (a : List Int) (js : List Nat) (l : Int × Nat)
    (h : l.1 = a.getD l.2 0) :
    (scanFrom a js l).1 = a.getD (scanFrom a js l).2 0 ∧
      ((scanFrom a js l).2 = l.2 ∨ (scanFrom a js l).2 ∈ js) ∧
      ∀ j ∈ js, (scanFrom a js l).1 ≤ a.getD j 0 := by
  induction js generalizing l with
  | nil => simp [scanFrom_nil, h]
  | cons j js ih =>
    rw [scanFrom_cons]
    by_cases hlt : a.getD j 0 < l.1
    · rw [if_pos hlt]
      obtain ⟨h1, h2, h3⟩ := ih (a.getD j 0, j) rfl
      refine ⟨h1, ?_, ?_⟩
      · rcases h2 with h2 | h2
        · right; rw [h2]; exact List.mem_cons_self _ _
        · right; exact List.mem_cons_of_mem _ h2
      · intro k hk
        rcases List.mem_cons.mp hk with rfl | hk
        · exact scanFrom_le a js (a.getD k 0, k)
        · exact h3 k hk
    · rw [if_neg hlt]
      obtain ⟨h1, h2, h3⟩ := ih l h
      refine ⟨h1, ?_, ?_⟩
      · rcases h2 with h2 | h2
        · left; exact h2
        · right; exact List.mem_cons_of_mem _ h2
      · intro k hk
        rcases List.mem_cons.mp hk with rfl | hk
        · exact le_trans (scanFrom_le a js l) (not_lt.mp hlt)
        · exact h3 k hk

/-- Scanning from a pair `g` that is already below the seed `s` gives what the critical
section makes of `g` and the scan from the seed. -/
theorem scanFrom_critical (a : List Int) (js : List Nat) (g s : Int × Nat) (h : g.1 ≤ s.1) :
    scanFrom a js g = critical g (scanFrom a js s) := by
  induction js generalizing g s with
  | nil =>
    simp only [scanFrom_nil, critical]
    rw [if_neg (not_lt.mpr h)]
  | cons j js ih =>
    rw [scanFrom_cons, scanFrom_cons]
    by_cases hlt : a.getD j 0 < g.1
    · have hlt2 : a.getD j 0 < s.1 := lt_of_lt_of_le hlt h
      rw [if_pos hlt, if_pos hlt2]
      have := scanFrom_le a js (a.getD j 0, j)
      simp only [critical]
      rw [if_pos (lt_of_le_of_lt this hlt)]
    · rw [if_neg hlt]
      have hg : g.1 ≤ (if a.getD j 0 < s.1 then (a.getD j 0, j) else s).1 := by
        split
        · exact not_lt.mp hlt
        · exact h
      exact ih g _ hg

/-- The merged result of a team is the result of one thread scanning the iterations of all
threads, concatenated in the order of entry into the critical section. -/
theorem globalMin_eq_localMin_flatten (a : List Int) (i : Nat) (team : List (List Nat)) :
    globalMin a i team = localMin a i team.flatten := by
  have key : ∀ (team : List (List Nat)) (g : Int × Nat), g.1 ≤ a.getD i 0 →
      team.foldl (fun g js => critical g (localMin a i js)) g = scanFrom a team.flatten g := by
    intro team
    induction team with
    | nil => intro g _; rfl
    | cons js rest ih =>
      intro g hg
      rw [List.foldl_cons, List.flatten_cons, scanFrom_append, localMin_eq_scanFrom,
        ← scanFrom_critical a js g (a.getD i 0, i) hg]
      exact ih _ (le_trans (scanFrom_le a js g) hg)
  exact key team (a.getD i 0, i) (le_refl _)

theorem scanFrom_snd_eq_seqMinIndex (a : List Int) (js : List Nat) (l : Int × Nat)
    (h : l.1 = a.getD l.2 0) : (scanFrom a js l).2 = seqMinIndex a js l.2 := by
  induction js generalizing l with
  | nil => rfl
  | cons j js ih =>
    rw [scanFrom_cons]
    unfold seqMinIndex
    rw [List.foldl_cons, ← h]
    by_cases hlt : a.getD j 0 < l.1
    · rw [if_pos hlt, if_pos hlt]; exact ih (a.getD j 0, j) rfl
    · rw [if_neg hlt, if_neg hlt]; exact ih l h

/-! ## Selection of a minimum and the invariant of the outer loop -/

theorem mem_innerIndices (i : Nat) (n : Int) (j : Nat) :
    j ∈ innerIndices i n ↔ i < j ∧ (j : Int) < n := by
  simp only [innerIndices, List.mem_range', Nat.one_mul]
  constructor
  · rintro ⟨t, ht, rfl⟩
    omega
  · rintro ⟨h1, h2⟩
    exact ⟨j - (i + 1), by omega, by omega⟩

theorem mem_outerIndices (n : Int) (i : Nat) : i ∈ outerIndices n ↔ (i : Int) < n - 1 := by
  simp only [outerIndices, List.mem_range]
  omega

theorem outerIndices_eq (n : Int) : outerIndices n = List.range (n.toNat - 1) := by
  unfold outerIndices
  congr 1
  omega

theorem sizeToInt_of_le (size : Nat) (h : size ≤ 2147483647) : sizeToInt size = size := by
  unfold sizeToInt
  omega

theorem sizeToInt_toNat_le (size : Nat) : (sizeToInt size).toNat ≤ size := by
  unfold sizeToInt
  omega

theorem isMinIndex_iff (a : List Int) (i m : Nat) :
    IsMinIndex a i m ↔ IsMinBelow a.length a i m := Iff.rfl

theorem localMin_isMinBelow (N : Nat) (a : List Int) (i : Nat) (js : List Nat) (hi : i < N)
    (hjs : ∀ j, j ∈ js ↔ i < j ∧ j < N) :
    IsMinBelow N a i (localMin a i js).2 ∧
      (localMin a i js).1 = a.getD (localMin a i js).2 0 := by
  rw [localMin_eq_scanFrom]
  obtain ⟨h1, h2, h3⟩ := scanFrom_spec a js (a.getD i 0, i) rfl
  have h4 := scanFrom_le a js (a.getD i 0, i)
  refine ⟨⟨?_, ?_, ?_⟩, h1⟩
  · rcases h2 with h2 | h2
    · exact le_of_eq h2.symm
    · exact le_of_lt ((hjs _).mp h2).1
  · rcases h2 with h2 | h2
    · rw [h2]; exact hi
    · exact ((hjs _).mp h2).2
  · intro j hij hj
    rw [← h1]
    rcases Nat.eq_or_lt_of_le hij with rfl | hlt
    · exact h4
    · exact h3 j ((hjs j).mpr ⟨hlt, hj⟩)

theorem localMin_isMinIndex (a : List Int) (i : Nat) (js : List Nat) (hi : i < a.length)
    (hjs : ∀ j, j ∈ js ↔ i < j ∧ j < a.length) :
    IsMinIndex a i (localMin a i js).2 ∧
      (localMin a i js).1 = a.getD (localMin a i js).2 0 :=
  localMin_isMinBelow a.length a i js hi hjs

theorem swap_sortedBelow (N : Nat) (a : List Int) (k m : Nat) (hN : N ≤ a.length)
    (hs : SortedBelow N k a) (hm : IsMinBelow N a k m) :
    SortedBelow N (k + 1) (swap a k m) := by
  obtain ⟨hkm, hmN, hmin⟩ := hm
  have hml : m < a.length := lt_of_lt_of_le hmN hN
  have hk : k < a.length := lt_of_le_of_lt hkm hml
  have hkN : k < N := lt_of_le_of_lt hkm hmN
  intro p q hp hpq hq
  rw [swap_getD a k m p hk hml, swap_getD a k m q hk hml]
  have key : ∀ q', k ≤ q' → q' < N →
      (if p = m then a.getD k 0 else if p = k then a.getD m 0 else a.getD p 0) ≤ a.getD q' 0 := by
    intro q' hq1 hq2
    by_cases hpk : p = k
    · subst hpk
      by_cases hpm : p = m
      · subst hpm; rw [if_pos rfl]; exact hmin q' hq1 hq2
      · rw [if_neg hpm, if_pos rfl]; exact hmin q' hq1 hq2
    · have hpk' : p < k := by omega
      have hpm : p ≠ m := by omega
      rw [if_neg hpm, if_neg hpk]
      rcases Nat.eq_or_lt_of_le hq1 with rfl | h
      · exact hs p k hpk' hpk' hq2
      · exact hs p q' hpk' (by omega) hq2
  by_cases hqm : q = m
  · rw [if_pos hqm]; exact key k (le_refl _) hkN
  · rw [if_neg hqm]
    by_cases hqk : q = k
    · rw [if_pos hqk]; exact key m hkm hmN
    · rw [if_neg hqk]
      by_cases hqlt : q < k
      · have hpm : p ≠ m := by omega
        have hpk : p ≠ k := by omega
        rw [if_neg hpm, if_neg hpk]
        exact hs p q (by omega) hpq hq
      · exact key q (by omega) hq

theorem sortedBelow_succ_of_self (N : Nat) (a : List Int) (k : Nat) (hs : SortedBelow N k a)
    (hm : IsMinBelow N a k k) : SortedBelow N (k + 1) a := by
  intro p q hp hpq hq
  rcases Nat.eq_or_lt_of_le (Nat.le_of_lt_succ hp) with rfl | h
  · exact hm.2.2 q (le_of_lt hpq) hq
  · exact hs p q h hpq hq

/-- Invariant of the outer loop for any step that swaps position `k` with a minimum of
`a[k..N)`: after `k` steps the vector is a permutation of the input whose first `k` positions
are final and whose positions from `N` on are untouched. -/
theorem foldl_select (N : Nat) (arr : List Int) (hN : N ≤ arr.length)
    (f : List Int → Nat → List Int)
    (hf : ∀ a i, a.length = arr.length → i + 1 < N →
      ∃ m, IsMinBelow N a i m ∧ f a i = if m ≠ i then swap a i m else a) :
    ∀ k, k ≤ N - 1 →
      ((List.range k).foldl f arr).length = arr.length ∧
      ((List.range k).foldl f arr).Perm arr ∧
      SortedBelow N k ((List.range k).foldl f arr) ∧
      ∀ j, N ≤ j → ((List.range k).foldl f arr).getD j 0 = arr.getD j 0 := by
  intro k
  induction k with
  | zero =>
    intro _
    refine ⟨rfl, List.Perm.refl _, ?_, fun _ _ => rfl⟩
    intro p q hp
    exact absurd hp (Nat.not_lt_zero _)
  | succ k ih =>
    intro hk
    obtain ⟨hlen, hperm, hsorted, hrest⟩ := ih (by omega)
    rw [List.range_succ, List.foldl_append, List.foldl_cons, List.foldl_nil]
    obtain ⟨m, hm, hfm⟩ := hf _ k hlen (by omega)
    rw [hfm]
    by_cases hmk : m = k
    · subst hmk
      simp only [ne_eq, not_true_eq_false, if_false]
      exact ⟨hlen, hperm, sortedBelow_succ_of_self _ _ _ hsorted hm, hrest⟩
    · rw [if_pos hmk]
      have hml : m < ((List.range k).foldl f arr).length := by
        rw [hlen]; exact lt_of_lt_of_le hm.2.1 hN
      have hkl : k < ((List.range k).foldl f arr).length := lt_of_le_of_lt hm.1 hml
      refine ⟨by rw [swap_length, hlen], (swap_perm _ k m hkl hml).trans hperm,
        swap_sortedBelow N _ k m (by rw [hlen]; exact hN) hsorted hm, ?_⟩
      intro j hj
      rw [swap_getD _ k m j hkl hml, if_neg (by have := hm.2.1; omega),
        if_neg (by have := hm.1; have := hm.2.1; omega)]
      exact hrest j hj

theorem nonDecreasing_mono (a : List Int) (h : NonDecreasing a) :
    ∀ p q, p < q → q < a.length → a.getD p 0 ≤ a.getD q 0 := by
  have mono : ∀ d p, p + d < a.length → a.getD p 0 ≤ a.getD (p + d) 0 := by
    intro d
    induction d with
    | zero => intro p _; exact le_refl _
    | succ d ih =>
      intro p hp
      exact le_trans (ih p (by omega)) (h (p + d) (by omega))
  intro p q hpq hq
  have := mono (q - p) p (by omega)
  rwa [show p + (q - p) = q by omega] at this

theorem nonDecreasing_iff_sorted (a : List Int) :
    NonDecreasing a ↔ a.Sorted (fun x y => x ≤ y) := by
  constructor
  · intro h
    unfold List.Sorted
    rw [List.pairwise_iff_getElem]
    intro i j hi hj hij
    have := nonDecreasing_mono a h i j hij hj
    simpa [List.getD_eq_getElem?_getD, hi, hj] using this
  · intro h k hk
    unfold List.Sorted at h
    rw [List.pairwise_iff_getElem] at h
    have := h k (k + 1) (by omega) hk (by omega)
    have hk' : k < a.length := by omega
    simpa [List.getD_eq_getElem?_getD, hk, hk'] using this

theorem sortedBelow_length_nonDecreasing (a : List Int)
    (h : SortedBelow a.length (a.length - 1) a) : NonDecreasing a := by
  intro k hk
  exact h k (k + 1) (by omega) (by omega) hk

theorem sortedBelow_of_nonDecreasing (N k : Nat) (a : List Int) (hN : N ≤ a.length)
    (h : NonDecreasing a) : SortedBelow N k a := by
  intro p q _ hpq hq
  exact nonDecreasing_mono a h p q hpq (lt_of_lt_of_le hq hN)

theorem getElem?_eq_of_getD (a b : List Int) (j : Nat) (hl : a.length = b.length)
    (h : a.getD j 0 = b.getD j 0) : a[j]? = b[j]? := by
  by_cases hj : j < a.length
  · have hj' : j < b.length := hl ▸ hj
    simp only [List.getD_eq_getElem?_getD, List.getElem?_eq_getElem hj,
      List.getElem?_eq_getElem hj', Option.getD_some] at h
    rw [List.getElem?_eq_getElem hj, List.getElem?_eq_getElem hj', h]
  · have hj' : ¬ j < b.length := hl ▸ hj
    rw [List.getElem?_eq_none (not_lt.mp hj), List.getElem?_eq_none (not_lt.mp hj')]

/-- What a selection sort of the first `N` positions leaves is determined by the input. -/
theorem sortsPrefix_unique (N : Nat) (arr r t : List Int)
    (hr : SortsPrefix N arr r) (ht : SortsPrefix N arr t) : r = t := by
  obtain ⟨rl, rp, rs, rd⟩ := hr
  obtain ⟨tl, tp, ts, td⟩ := ht
  have hdrop : r.drop N = t.drop N := by
    apply List.ext_getElem?
    intro j
    rw [List.getElem?_drop, List.getElem?_drop]
    exact getElem?_eq_of_getD r t _ (rl.trans tl.symm)
      ((rd _ (Nat.le_add_right _ _)).trans (td _ (Nat.le_add_right _ _)).symm)
  have hsorted : ∀ l : List Int, l.length = arr.length → SortedBelow N (N - 1) l →
      (l.take N).Sorted (fun x y => x ≤ y) := by
    intro l hl hs
    unfold List.Sorted
    rw [List.pairwise_iff_getElem]
    intro i j hi hj hij
    rw [List.length_take] at hi hj
    have hjN : j < N := lt_of_lt_of_le hj (min_le_left _ _)
    have hjl : j < l.length := lt_of_lt_of_le hj (min_le_right _ _)
    have := hs i j (by omega) hij hjN
    rw [List.getElem_take, List.getElem_take]
    simpa [List.getD_eq_getElem?_getD, hjl, show i < l.length by omega] using this
  have hperm : (r.take N).Perm (t.take N) := by
    have h := rp.trans tp.symm
    rw [← List.take_append_drop N r, ← List.take_append_drop N t, hdrop] at h
    exact (List.perm_append_right_iff _).mp h
  have htake : r.take N = t.take N :=
    List.eq_of_perm_of_sorted hperm (hsorted r rl rs) (hsorted t tl ts)
  rw [← List.take_append_drop N r, ← List.take_append_drop N t, htake, hdrop]

/-! ## Both sorts leave the same vector -/

theorem seqMinIndex_eq_localMin (a : List Int) (i : Nat) (js : List Nat) :
    seqMinIndex a js i = (localMin a i js).2 := by
  rw [localMin_eq_scanFrom]
  exact (scanFrom_snd_eq_seqMinIndex a js (a.getD i 0, i) rfl).symm

theorem seqMinIndex_isMinBelow (a : List Int) (i : Nat) (n : Int) (hi : i < n.toNat) :
    IsMinBelow n.toNat a i (seqMinIndex a (innerIndices i n) i) := by
  rw [seqMinIndex_eq_localMin]
  refine (localMin_isMinBelow n.toNat a i _ hi ?_).1
  intro j
  rw [mem_innerIndices]
  omega

theorem globalMin_isMinBelow (a : List Int) (i : Nat) (n : Int) (team : List (List Nat))
    (hi : i < n.toNat) (hv : ValidTeam n i team) :
    IsMinBelow n.toNat a i (globalMin a i team).2 ∧
      (globalMin a i team).1 = a.getD (globalMin a i team).2 0 := by
  rw [globalMin_eq_localMin_flatten]
  refine localMin_isMinBelow n.toNat a i _ hi ?_
  intro j
  rw [hv.mem_iff, mem_innerIndices]
  omega

theorem seqMinIndex_isMinIndex (a : List Int) (i : Nat) (hi : i < a.length) :
    IsMinIndex a i (seqMinIndex a (innerIndices i a.length) i) := by
  have := seqMinIndex_isMinBelow a i (a.length : Int) (by simpa using hi)
  simpa [isMinIndex_iff] using this

theorem globalMin_isMinIndex (a : List Int) (i : Nat) (team : List (List Nat))
    (hi : i < a.length) (hv : ValidTeam a.length i team) :
    IsMinIndex a i (globalMin a i team).2 ∧
      (globalMin a i team).1 = a.getD (globalMin a i team).2 0 := by
  have := globalMin_isMinBelow a i (a.length : Int) team (by simpa using hi) hv
  simpa [isMinIndex_iff] using this

theorem seq_sortsPrefix (arr : List Int) :
    SortsPrefix (sizeToInt arr.length).toNat arr (selectionSortSequential arr) := by
  have h := foldl_select (sizeToInt arr.length).toNat arr (sizeToInt_toNat_le _)
    (seqStep (sizeToInt arr.length)) (by
      intro a i _ hi
      refine ⟨seqMinIndex a (innerIndices i (sizeToInt arr.length)) i,
        seqMinIndex_isMinBelow a i _ (by omega), ?_⟩
      simp only [seqStep]) ((sizeToInt arr.length).toNat - 1) (le_refl _)
  unfold selectionSortSequential
  simp only [outerIndices_eq]
  exact h

theorem par_sortsPrefix (arr : List Int) (sched : Nat → List (List Nat))
    (hv : ValidSchedule (sizeToInt arr.length) sched) :
    SortsPrefix (sizeToInt arr.length).toNat arr (selectionSortParallel sched arr) := by
  have h := foldl_select (sizeToInt arr.length).toNat arr (sizeToInt_toNat_le _)
    (fun a i => parStep a i (sched i)) (by
      intro a i _ hi
      have hv' : ValidTeam (sizeToInt arr.length) i (sched i) :=
        hv i ((mem_outerIndices _ _).mpr (by omega))
      refine ⟨(globalMin a i (sched i)).2,
        (globalMin_isMinBelow a i _ (sched i) (by omega) hv').1, ?_⟩
      simp only [parStep]) ((sizeToInt arr.length).toNat - 1) (le_refl _)
  unfold selectionSortParallel
  simp only [outerIndices_eq]
  exact h

theorem sortsPrefix_self (N : Nat) (arr : List Int) (h : SortedBelow N (N - 1) arr) :
    SortsPrefix N arr arr :=
  ⟨rfl, List.Perm.refl _, h, fun _ _ => rfl⟩

theorem sortsPrefix_nonDecreasing (arr r : List Int) (hlen : arr.length ≤ 2147483647)
    (h : SortsPrefix (sizeToInt arr.length).toNat arr r) : NonDecreasing r := by
  rw [sizeToInt_of_le _ hlen, Int.toNat_natCast] at h
  obtain ⟨h1, _, h3, _⟩ := h
  rw [← h1] at h3
  exact sortedBelow_length_nonDecreasing r h3

theorem selectionSortSequential_of_le_one (arr : List Int) (h : sizeToInt arr.length ≤ 1) :
    selectionSortSequential arr = arr := by
  unfold selectionSortSequential
  simp only [outerIndices_eq, show (sizeToInt arr.length).toNat - 1 = 0 by omega]
  rfl

theorem mem_drop_iff_getD (a : List Int) (i : Nat) (x : Int) :
    x ∈ a.drop i ↔ ∃ j, i ≤ j ∧ j < a.length ∧ a.getD j 0 = x := by
  constructor
  · intro h
    obtain ⟨t, ht, rfl⟩ := List.mem_iff_getElem.mp h
    rw [List.length_drop] at ht
    refine ⟨i + t, by omega, by omega, ?_⟩
    rw [List.getElem_drop]
    simp [List.getD_eq_getElem?_getD, show i + t < a.length by omega]
  · rintro ⟨j, hij, hj, rfl⟩
    have hj' : j - i < (a.drop i).length := by rw [List.length_drop]; omega
    have : (a.drop i)[j - i] = a.getD j 0 := by
      rw [List.getElem_drop]
      simp [List.getD_eq_getElem?_getD, show i + (j - i) = j by omega, hj]
    rw [← this]
    exact List.getElem_mem hj'

/-- The sequential scan stops at the lowest index holding the minimum. -/
theorem seqMinIndex_lowest (a : List Int) (i cnt : Nat) :
    ∀ j, i ≤ j → j < seqMinIndex a (List.range' (i + 1) cnt) i →
      a.getD (seqMinIndex a (List.range' (i + 1) cnt) i) 0 < a.getD j 0 := by
  induction cnt with
  | zero =>
    intro j h1 h2
    simp only [List.range'_zero, seqMinIndex, List.foldl_nil] at h2
    omega
  | succ cnt ih =>
    have hspec := scanFrom_spec a (List.range' (i + 1) cnt) (a.getD i 0, i) rfl
    have hle := scanFrom_le a (List.range' (i + 1) cnt) (a.getD i 0, i)
    have hidx := scanFrom_snd_eq_seqMinIndex a (List.range' (i + 1) cnt) (a.getD i 0, i) rfl
    simp only at hidx hle
    obtain ⟨h1, h2, h3⟩ := hspec
    rw [hidx] at h1 h2
    have hstep : seqMinIndex a (List.range' (i + 1) (cnt + 1)) i =
        if a.getD (i + 1 + cnt) 0 < a.getD (seqMinIndex a (List.range' (i + 1) cnt) i) 0
        then i + 1 + cnt else seqMinIndex a (List.range' (i + 1) cnt) i := by
      simp [seqMinIndex, List.range'_concat, List.foldl_append]
    rw [hstep]
    intro j hij hj
    by_cases hlt : a.getD (i + 1 + cnt) 0 < a.getD (seqMinIndex a (List.range' (i + 1) cnt) i) 0
    · rw [if_pos hlt] at hj ⊢
      refine lt_of_lt_of_le hlt ?_
      rw [← h1]
      rcases Nat.eq_or_lt_of_le hij with rfl | hlt'
      · exact hle
      · refine h3 j ?_
        rw [List.mem_range']
        exact ⟨j - (i + 1), by omega, by omega⟩
    · rw [if_neg hlt] at hj ⊢
      exact ih j hij hj

/-! ## The min/max scan -/

theorem minMaxScan_spec (arr : List Int) (is : List Nat) (s : Int × Int)
    (hb : ∀ i ∈ is, i < arr.length) :
    ∃ r, minMaxScan arr is s = some r ∧
      (r.1 ≤ s.1 ∧ (∀ i ∈ is, r.1 ≤ arr.getD i 0) ∧
        (r.1 = s.1 ∨ ∃ i ∈ is, r.1 = arr.getD i 0)) ∧
      (s.2 ≤ r.2 ∧ (∀ i ∈ is, arr.getD i 0 ≤ r.2) ∧
        (r.2 = s.2 ∨ ∃ i ∈ is, r.2 = arr.getD i 0)) := by
  induction is generalizing s with
  | nil =>
    exact ⟨s, rfl, ⟨le_refl _, by simp, Or.inl rfl⟩, ⟨le_refl _, by simp, Or.inl rfl⟩⟩
  | cons i is ih =>
    have hi : i < arr.length := hb i (List.mem_cons_self _ _)
    have hget : arr[i]? = some (arr.getD i 0) := by
      simp [List.getD_eq_getElem?_getD, hi]
    obtain ⟨r, hr, ⟨m1, m2, m3⟩, ⟨x1, x2, x3⟩⟩ :=
      ih (if arr.getD i 0 < s.1 then arr.getD i 0 else s.1,
          if arr.getD i 0 > s.2 then arr.getD i 0 else s.2)
        (fun j hj => hb j (List.mem_cons_of_mem _ hj))
    refine ⟨r, ?_, ⟨?_, ?_, ?_⟩, ⟨?_, ?_, ?_⟩⟩
    · simp only [minMaxScan, minMaxBody, hget]
      exact hr
    · refine le_trans m1 ?_
      simp only
      split
      · exact le_of_lt ‹_›
      · exact le_refl _
    · intro j hj
      rcases List.mem_cons.mp hj with rfl | hj
      · refine le_trans m1 ?_
        simp only
        split
        · exact le_refl _
        · exact not_lt.mp ‹_›
      · exact m2 j hj
    · rcases m3 with m3 | ⟨j, hj, m3⟩
      · simp only at m3
        by_cases hlt : arr.getD i 0 < s.1
        · rw [if_pos hlt] at m3
          exact Or.inr ⟨i, List.mem_cons_self _ _, m3⟩
        · rw [if_neg hlt] at m3
          exact Or.inl m3
      · exact Or.inr ⟨j, List.mem_cons_of_mem _ hj, m3⟩
    · refine le_trans ?_ x1
      simp only
      split
      · exact le_of_lt ‹_›
      · exact le_refl _
    · intro j hj
      rcases List.mem_cons.mp hj with rfl | hj
      · refine le_trans ?_ x1
        simp only
        split
        · exact le_refl _
        · exact not_lt.mp ‹_›
      · exact x2 j hj
    · rcases x3 with x3 | ⟨j, hj, x3⟩
      · simp only at x3
        by_cases hlt : arr.getD i 0 > s.2
        · rw [if_pos hlt] at x3
          exact Or.inr ⟨i, List.mem_cons_self _ _, x3⟩
        · rw [if_neg hlt] at x3
          exact Or.inl x3
      · exact Or.inr ⟨j, List.mem_cons_of_mem _ hj, x3⟩

theorem mem_iff_getD (a : List Int) (x : Int) :
    x ∈ a ↔ ∃ j, j < a.length ∧ a.getD j 0 = x := by
  have := mem_drop_iff_getD a 0 x
  simpa using this

theorem getElem?_zero_eq_none_iff (arr : List Int) : arr[0]? = none ↔ arr = [] := by
  cases arr <;> simp

theorem counterValues_of_le (start size : Nat) (h : size ≤ 2147483647) :
    counterValues start size = some (List.range' start (size - start)) := by
  unfold counterValues INT_MAX
  rw [if_pos (by omega)]

theorem counterValues_of_gt (start size : Nat) (h : 2147483647 < size) :
    counterValues start size = none := by
  unfold counterValues INT_MAX
  rw [if_neg (by omega)]

theorem findMinMaxSequential_spec (arr : List Int) (hne : arr ≠ [])
    (hsize : arr.length ≤ 2147483647) :
    ∃ r, findMinMaxSequential arr = some r ∧ IsMinMax arr r := by
  have hlen : 0 < arr.length := List.length_pos.mpr hne
  have h0 : arr[0]? = some (arr.getD 0 0) := by
    simp [List.getD_eq_getElem?_getD, hlen]
  have hmem : ∀ j, j ∈ List.range' 1 (arr.length - 1) ↔ 1 ≤ j ∧ j < arr.length := by
    intro j
    simp only [List.mem_range', Nat.one_mul]
    constructor
    · rintro ⟨t, ht, rfl⟩; omega
    · rintro ⟨h1, h2⟩; exact ⟨j - 1, by omega, by omega⟩
  obtain ⟨r, hr, ⟨m1, m2, m3⟩, ⟨x1, x2, x3⟩⟩ :=
    minMaxScan_spec arr (List.range' 1 (arr.length - 1)) (arr.getD 0 0, arr.getD 0 0)
      (fun j hj => ((hmem j).mp hj).2)
  simp only at m1 m3 x1 x3
  refine ⟨r, by
    simp only [findMinMaxSequential, h0, counterValues_of_le _ _ hsize]
    exact hr, ?_, ?_, ?_⟩
  · rw [mem_iff_getD]
    rcases m3 with m3 | ⟨j, hj, m3⟩
    · exact ⟨0, hlen, m3.symm⟩
    · exact ⟨j, ((hmem j).mp hj).2, m3.symm⟩
  · rw [mem_iff_getD]
    rcases x3 with x3 | ⟨j, hj, x3⟩
    · exact ⟨0, hlen, x3.symm⟩
    · exact ⟨j, ((hmem j).mp hj).2, x3.symm⟩
  · intro x hx
    obtain ⟨j, hj, rfl⟩ := (mem_iff_getD arr x).mp hx
    rcases Nat.eq_zero_or_pos j with rfl | hpos
    · exact ⟨m1, x1⟩
    · exact ⟨m2 j ((hmem j).mpr ⟨hpos, hj⟩), x2 j ((hmem j).mpr ⟨hpos, hj⟩)⟩

theorem findMinMaxSequential_of_gt (arr : List Int) (h : 2147483647 < arr.length) :
    findMinMaxSequential arr = none := by
  unfold findMinMaxSequential
  rw [counterValues_of_gt _ _ h]
  cases arr[0]? <;> rfl

/-! ## `isSorted` -/

theorem toSizeT_natCast (k : Nat) (h : k < SIZE_MOD) : toSizeT (k : Int) = k := by
  unfold toSizeT
  have h' : ((k : Int)) < ((SIZE_MOD : Nat) : Int) := by exact_mod_cast h
  rw [Int.emod_eq_of_lt (Int.natCast_nonneg k) h']
  exact Int.toNat_natCast k

theorem isSortedLoop_spec (arr : List Int) (hlen : arr.length < SIZE_MOD) :
    ∀ fuel k, k + 1 ≤ arr.length → arr.length ≤ k + fuel →
      ∃ b, isSortedLoop arr (arr.length - 1) fuel (k : Int) = Outcome.value b ∧
        (b = true ↔ ∀ j, k ≤ j → j + 1 < arr.length → arr.getD j 0 ≤ arr.getD (j + 1) 0) := by
  intro fuel
  induction fuel with
  | zero =>
    intro k h1 h2
    omega
  | succ fuel ih =>
    intro k h1 h2
    have hk : toSizeT (k : Int) = k := toSizeT_natCast k (by omega)
    by_cases hlt : k < arr.length - 1
    · have hk1 : toSizeT ((k : Int) + 1) = k + 1 := by
        have := toSizeT_natCast (k + 1) (by omega)
        simpa using this
      have hg0 : arr[k]? = some (arr.getD k 0) := by
        simp [List.getD_eq_getElem?_getD, show k < arr.length by omega]
      have hg1 : arr[k + 1]? = some (arr.getD (k + 1) 0) := by
        simp [List.getD_eq_getElem?_getD, show k + 1 < arr.length by omega]
      by_cases hgt : arr.getD k 0 > arr.getD (k + 1) 0
      · refine ⟨false, ?_, ?_⟩
        · simp only [isSortedLoop, hk, hk1, if_pos hlt, hg0, hg1, if_pos hgt]
        · constructor
          · intro h; exact absurd h (by decide)
          · intro h
            exact absurd (h k (le_refl _) (by omega)) (not_le.mpr hgt)
      · obtain ⟨b, hb, hiff⟩ := ih (k + 1) (by omega) (by omega)
        refine ⟨b, ?_, ?_⟩
        · simp only [isSortedLoop, hk, hk1, if_pos hlt, hg0, hg1, if_neg hgt]
          exact_mod_cast hb
        · rw [hiff]
          constructor
          · intro h j hj1 hj2
            rcases Nat.eq_or_lt_of_le hj1 with rfl | hj
            · exact not_lt.mp hgt
            · exact h j hj hj2
          · intro h j hj1 hj2
            exact h j (by omega) hj2
    · refine ⟨true, ?_, ?_⟩
      · simp only [isSortedLoop, hk, if_neg hlt]
      · constructor
        · intro _ j hj1 hj2
          omega
        · intro _; rfl

/-- On every non-empty vector whose size fits the `int` counter, `isSorted` reads in bounds
and returns `true` exactly when the vector is non-decreasing. -/
theorem isSorted_of_ne_nil (arr : List Int) (hne : arr ≠ [])
    (hlen : (arr.length : Int) ≤ INT_MAX) :
    ∃ b, isSorted arr = Outcome.value b ∧ (b = true ↔ NonDecreasing arr) := by
  have hpos : 0 < arr.length := List.length_pos.mpr hne
  have hlt : arr.length < SIZE_MOD := by
    unfold INT_MAX at hlen
    unfold SIZE_MOD
    omega
  have hbound : (arr.length + SIZE_MOD - 1) % SIZE_MOD = arr.length - 1 := by
    rw [show arr.length + SIZE_MOD - 1 = (arr.length - 1) + SIZE_MOD by omega,
      Nat.add_mod_right]
    exact Nat.mod_eq_of_lt (by omega)
  obtain ⟨b, hb, hiff⟩ := isSortedLoop_spec arr hlt (arr.length + 1) 0 (by omega) (by omega)
  refine ⟨b, ?_, ?_⟩
  · unfold isSorted
    rw [hbound]
    exact_mod_cast hb
  · rw [hiff]
    unfold NonDecreasing
    constructor
    · intro h j hj; exact h j (Nat.zero_le _) hj
    · intro h j _ hj; exact h j hj

/-! ## Claims on the selection sort -/

/-- C1: for every input vector and every valid team at every outer step (any number of
threads, any assignment of the inner iterations, empty partitions included, any order of
entry into the critical section), `selectionSortParallel` leaves exactly the vector that
`selectionSortSequential` leaves. -/
theorem selectionSortParallel_eq_sequential (arr : List Int) (sched : Nat → List (List Nat))
    (hv : ValidSchedule (sizeToInt arr.length) sched) :
    selectionSortParallel sched arr = selectionSortSequential arr :=
  sortsPrefix_unique (sizeToInt arr.length).toNat arr _ _
    (par_sortsPrefix arr sched hv) (seq_sortsPrefix arr)

theorem selectionSortParallel_eq_sequential_witness :
    ValidSchedule (sizeToInt ([5, 3, 3] : List Int).length) reversedEntry ∧
      selectionSortParallel reversedEntry [5, 3, 3] = selectionSortSequential [5, 3, 3] :=
  ⟨by decide, selectionSortParallel_eq_sequential [5, 3, 3] reversedEntry (by decide)⟩

/-- C2 as stated fails: on a vector of 2147483650 elements `int n = arr.size()` is
`-2147483646`, the outer loop of `selectionSortSequential` does not run, and the vector is
left as it was, with `arr[0] = 1` before `arr[1] = 0`. -/
theorem selectionSortSequential_huge_unsorted :
    hugeVector.length = 2147483650 ∧
      sizeToInt hugeVector.length = -2147483646 ∧
      selectionSortSequential hugeVector = hugeVector ∧
      ¬ (∀ k, k + 1 < (selectionSortSequential hugeVector).length →
        (selectionSortSequential hugeVector).getD k 0
          ≤ (selectionSortSequential hugeVector).getD (k + 1) 0) := by
  have hlen : hugeVector.length = 2147483650 := by
    unfold hugeVector
    rw [List.length_cons, List.length_cons, List.length_replicate]
  have hn : sizeToInt hugeVector.length = -2147483646 := by
    rw [hlen]
    decide
  have hsort : selectionSortSequential hugeVector = hugeVector :=
    selectionSortSequential_of_le_one hugeVector (by rw [hn]; decide)
  refine ⟨hlen, hn, hsort, ?_⟩
  intro h
  have h01 := h 0 (by rw [hsort, hlen]; decide)
  rw [hsort] at h01
  unfold hugeVector at h01
  simp only [List.getD_cons_zero, List.getD_cons_succ] at h01
  exact absurd h01 (by decide)

/-- C2 amended: for every input vector of at most `INT_MAX` elements,
`selectionSortSequential` leaves a permutation of the input of the same length in which every
adjacent pair is in order; `[5, 3, 8, 1, 9, 2]` becomes `[1, 2, 3, 5, 8, 9]`. -/
theorem selectionSortSequential_sorts (arr : List Int) (hlen : arr.length ≤ 2147483647) :
    (selectionSortSequential arr).Perm arr ∧
      (selectionSortSequential arr).length = arr.length ∧
      (∀ k, k + 1 < (selectionSortSequential arr).length →
        (selectionSortSequential arr).getD k 0 ≤ (selectionSortSequential arr).getD (k + 1) 0) ∧
      selectionSortSequential [5, 3, 8, 1, 9, 2] = [1, 2, 3, 5, 8, 9] := by
  have h := seq_sortsPrefix arr
  exact ⟨h.2.1, h.1, sortsPrefix_nonDecreasing arr _ hlen h, by decide⟩

theorem selectionSortSequential_sorts_witness :
    ([5, 3, 8, 1, 9, 2] : List Int).length ≤ 2147483647 ∧
      (selectionSortSequential [5, 3, 8, 1, 9, 2]).Perm [5, 3, 8, 1, 9, 2] ∧
      ∀ k, k + 1 < (selectionSortSequential [5, 3, 8, 1, 9, 2]).length →
        (selectionSortSequential [5, 3, 8, 1, 9, 2]).getD k 0
          ≤ (selectionSortSequential [5, 3, 8, 1, 9, 2]).getD (k + 1) 0 :=
  ⟨by decide, (selectionSortSequential_sorts [5, 3, 8, 1, 9, 2] (by decide)).1,
    (selectionSortSequential_sorts [5, 3, 8, 1, 9, 2] (by decide)).2.2.1⟩

/-- C3 as stated fails: on `[5, 3, 3]` at outer step `0`, with iteration `1` on thread 0 and
iteration `2` on thread 1, thread 1 entering the critical section first, the parallel region
chooses index `2` while the sequential scan chooses index `1`, the lowest index holding the
minimum `3`. -/
theorem globalMin_index_not_lowest :
    0 ∈ outerIndices (([5, 3, 3] : List Int).length : Int) ∧
      ValidTeam (([5, 3, 3] : List Int).length : Int) 0 [[2], [1]] ∧
      globalMin [5, 3, 3] 0 [[2], [1]] = (3, 2) ∧
      seqMinIndex [5, 3, 3] (innerIndices 0 (([5, 3, 3] : List Int).length : Int)) 0 = 1 ∧
      (globalMin [5, 3, 3] 0 [[2], [1]]).2 ≠
        seqMinIndex [5, 3, 3] (innerIndices 0 (([5, 3, 3] : List Int).length : Int)) 0 := by
  refine ⟨by decide, by decide, by decide, by decide, by decide⟩

/-- C3 amended: at every outer step `i`, for every valid team, the index chosen by the
parallel region lies in `[i, n)` and holds the minimum of `arr[i..n)`, the same value as the
index chosen by the sequential scan; the sequential index is the lowest index holding that
minimum; the two indices coincide when the minimum occurs once in `arr[i..n)` and when the
iterations, read thread after thread in the order of entry into the critical section, are in
increasing order; in general the parallel index is the one the strict scan of the sequential
variant chooses when it visits the iterations thread after thread in that order. -/
theorem globalMin_index_tie_break (arr : List Int) (i : Nat) (team : List (List Nat))
    (hi : i ∈ outerIndices arr.length) (hv : ValidTeam arr.length i team) :
    IsMinIndex arr i (globalMin arr i team).2 ∧
      IsMinIndex arr i (seqMinIndex arr (innerIndices i arr.length) i) ∧
      arr.getD (globalMin arr i team).2 0
        = arr.getD (seqMinIndex arr (innerIndices i arr.length) i) 0 ∧
      (∀ j, i ≤ j → j < seqMinIndex arr (innerIndices i arr.length) i →
        arr.getD (seqMinIndex arr (innerIndices i arr.length) i) 0 < arr.getD j 0) ∧
      ((∀ j, i ≤ j → j < arr.length →
          arr.getD j 0 = arr.getD (seqMinIndex arr (innerIndices i arr.length) i) 0 →
          j = seqMinIndex arr (innerIndices i arr.length) i) →
        (globalMin arr i team).2 = seqMinIndex arr (innerIndices i arr.length) i) ∧
      (team.flatten = innerIndices i arr.length →
        (globalMin arr i team).2 = seqMinIndex arr (innerIndices i arr.length) i) ∧
      (globalMin arr i team).2 = seqMinIndex arr team.flatten i := by
  rw [mem_outerIndices] at hi
  have hil : i < arr.length := by omega
  have hg := (globalMin_isMinIndex arr i team hil hv).1
  have hs := seqMinIndex_isMinIndex arr i hil
  have heq : arr.getD (globalMin arr i team).2 0
      = arr.getD (seqMinIndex arr (innerIndices i arr.length) i) 0 :=
    le_antisymm (hg.2.2 _ hs.1 hs.2.1) (hs.2.2 _ hg.1 hg.2.1)
  refine ⟨hg, hs, heq, ?_, ?_, ?_, ?_⟩
  · exact seqMinIndex_lowest arr i _
  · intro huniq
    exact huniq _ hg.1 hg.2.1 heq
  · intro hflat
    rw [globalMin_eq_localMin_flatten, hflat, seqMinIndex_eq_localMin]
  · rw [globalMin_eq_localMin_flatten, seqMinIndex_eq_localMin]

theorem globalMin_index_tie_break_witness :
    0 ∈ outerIndices (([5, 3, 3] : List Int).length : Int) ∧
      ValidTeam (([5, 3, 3] : List Int).length : Int) 0 [[1], [2]] ∧
      (globalMin [5, 3, 3] 0 [[1], [2]]).2
        = seqMinIndex [5, 3, 3] (innerIndices 0 (([5, 3, 3] : List Int).length : Int)) 0 :=
  ⟨by decide, by decide,
    (globalMin_index_tie_break [5, 3, 3] 0 [[1], [2]] (by decide) (by decide)).2.2.2.2.2.1
      (by decide)⟩

/-- C7: a vector that is already non-decreasing is left unchanged by
`selectionSortSequential` and, for every valid team at every step, by
`selectionSortParallel`; and sorting the vector left by either sort again, with either
sort, returns that same vector. -/
theorem selectionSort_idempotent (arr : List Int) (s1 s2 : Nat → List (List Nat))
    (h1 : ValidSchedule (sizeToInt arr.length) s1)
    (h2 : ValidSchedule (sizeToInt arr.length) s2) :
    (NonDecreasing arr →
        selectionSortSequential arr = arr ∧ selectionSortParallel s1 arr = arr) ∧
      selectionSortSequential (selectionSortSequential arr) = selectionSortSequential arr ∧
      selectionSortParallel s2 (selectionSortParallel s1 arr) = selectionSortParallel s1 arr ∧
      selectionSortSequential (selectionSortParallel s1 arr) = selectionSortParallel s1 arr ∧
      selectionSortParallel s2 (selectionSortSequential arr) = selectionSortSequential arr := by
  have fixSeq : ∀ a : List Int,
      SortedBelow (sizeToInt a.length).toNat ((sizeToInt a.length).toNat - 1) a →
      selectionSortSequential a = a := fun a ha =>
    sortsPrefix_unique _ a _ _ (seq_sortsPrefix a) (sortsPrefix_self _ a ha)
  have fixPar : ∀ (a : List Int) (s : Nat → List (List Nat)),
      ValidSchedule (sizeToInt a.length) s →
      SortedBelow (sizeToInt a.length).toNat ((sizeToInt a.length).toNat - 1) a →
      selectionSortParallel s a = a := fun a s hv ha =>
    sortsPrefix_unique _ a _ _ (par_sortsPrefix a s hv) (sortsPrefix_self _ a ha)
  obtain ⟨hl, _, hs, _⟩ := seq_sortsPrefix arr
  obtain ⟨hl', _, hs', _⟩ := par_sortsPrefix arr s1 h1
  rw [← hl] at hs
  rw [← hl'] at hs'
  refine ⟨fun ha => ?_, fixSeq _ hs, ?_, fixSeq _ hs', ?_⟩
  · have hb := sortedBelow_of_nonDecreasing (sizeToInt arr.length).toNat
      ((sizeToInt arr.length).toNat - 1) arr (sizeToInt_toNat_le _) ha
    exact ⟨fixSeq arr hb, fixPar arr s1 h1 hb⟩
  · exact fixPar _ s2 (by rw [hl']; exact h2) hs'
  · exact fixPar _ s2 (by rw [hl]; exact h2) hs

theorem selectionSort_idempotent_witness :
    ValidSchedule (sizeToInt ([3, 3, 5] : List Int).length) reversedEntry ∧
      NonDecreasing [3, 3, 5] ∧
      selectionSortSequential [3, 3, 5] = [3, 3, 5] ∧
      selectionSortParallel reversedEntry [3, 3, 5] = [3, 3, 5] :=
  ⟨by decide, by decide,
    (selectionSort_idempotent [3, 3, 5] reversedEntry reversedEntry (by decide)
      (by decide)).1 (by decide)⟩

/-- C8: on a vector of size 0 or 1 the outer loop of both sorts runs zero times (for the
empty vector the signed bound `n - 1` is `-1`), so nothing is read or swapped, no parallel
region is entered, and both sorts return the vector unchanged, whatever the teams; the
conversion of `arr.size()` to `int` is exact there. -/
theorem selectionSort_small_noop (arr : List Int) (sched : Nat → List (List Nat))
    (h : arr.length ≤ 1) :
    sizeToInt arr.length = (arr.length : Int) ∧
      outerIndices arr.length = [] ∧
      (arr = [] → (arr.length : Int) - 1 = -1) ∧
      selectionSortSequential arr = arr ∧
      selectionSortParallel sched arr = arr := by
  have hn : sizeToInt arr.length = (arr.length : Int) := sizeToInt_of_le _ (by omega)
  have h0 : outerIndices (arr.length : Int) = [] := by
    rw [outerIndices_eq, Int.toNat_natCast, show arr.length - 1 = 0 by omega]
    rfl
  refine ⟨hn, h0, ?_, ?_, ?_⟩
  · rintro rfl
    rfl
  · unfold selectionSortSequential
    simp only [hn, h0, List.foldl_nil]
  · unfold selectionSortParallel
    simp only [hn, h0, List.foldl_nil]

theorem selectionSort_small_noop_witness :
    (([] : List Int).length ≤ 1 ∧ selectionSortSequential [] = [] ∧
        selectionSortParallel reversedEntry [] = []) ∧
      (([7] : List Int).length ≤ 1 ∧ selectionSortSequential [7] = [7] ∧
        selectionSortParallel reversedEntry [7] = [7]) :=
  ⟨⟨by decide, (selectionSort_small_noop [] reversedEntry (by decide)).2.2.2⟩,
    ⟨by decide, (selectionSort_small_noop [7] reversedEntry (by decide)).2.2.2⟩⟩

/-- C9: at every outer step `i`, for every valid team (threads without iterations keep the
seed `(arr[i], i)`) listed in any order of entry into the critical section, after the join
`global_min_value` is the minimum of `arr[i..n)`, `i <= global_min_index < n` and
`arr[global_min_index] == global_min_value`. -/
theorem globalMin_is_minimum (arr : List Int) (i : Nat) (team : List (List Nat))
    (hi : i ∈ outerIndices arr.length) (hv : ValidTeam arr.length i team) :
    localMin arr i [] = (arr.getD i 0, i) ∧
      (globalMin arr i team).1 ∈ arr.drop i ∧
      (∀ x ∈ arr.drop i, (globalMin arr i team).1 ≤ x) ∧
      i ≤ (globalMin arr i team).2 ∧
      (globalMin arr i team).2 < arr.length ∧
      arr[(globalMin arr i team).2]? = some (globalMin arr i team).1 := by
  rw [mem_outerIndices] at hi
  have hil : i < arr.length := by omega
  obtain ⟨⟨h1, h2, h3⟩, h4⟩ := globalMin_isMinIndex arr i team hil hv
  refine ⟨rfl, ?_, ?_, h1, h2, ?_⟩
  · rw [mem_drop_iff_getD]
    exact ⟨_, h1, h2, h4.symm⟩
  · intro x hx
    obtain ⟨j, hj1, hj2, rfl⟩ := (mem_drop_iff_getD arr i x).mp hx
    rw [h4]
    exact h3 j hj1 hj2
  · rw [h4, List.getD_eq_getElem?_getD, List.getElem?_eq_getElem h2]
    rfl

theorem globalMin_is_minimum_witness :
    0 ∈ outerIndices (([5, 3, 8, 1, 9, 1] : List Int).length : Int) ∧
      ValidTeam (([5, 3, 8, 1, 9, 1] : List Int).length : Int) 0 [[4, 5], [], [2, 3], [1]] ∧
      globalMin [5, 3, 8, 1, 9, 1] 0 [[4, 5], [], [2, 3], [1]] = (1, 5) ∧
      (∀ x ∈ ([5, 3, 8, 1, 9, 1] : List Int).drop 0,
        (globalMin [5, 3, 8, 1, 9, 1] 0 [[4, 5], [], [2, 3], [1]]).1 ≤ x) :=
  ⟨by decide, by decide, by decide,
    (globalMin_is_minimum [5, 3, 8, 1, 9, 1] 0 [[4, 5], [], [2, 3], [1]]
      (by decide) (by decide)).2.2.1⟩

/-! ## Claims on the min/max reduction -/

/-- C4 as stated fails: on a non-empty vector of 2147483650 elements the `int` counter of
`findMinMaxSequential` would have to pass `INT_MAX`; the increment overflows, the run is
undefined and no pair `(min_val, max_val)` is returned. -/
theorem findMinMaxSequential_huge_undefined :
    hugeVector ≠ [] ∧
      hugeVector.length = 2147483650 ∧
      counterValues 1 hugeVector.length = none ∧
      findMinMaxSequential hugeVector = none ∧
      ¬ ∃ mn mx, findMinMaxSequential hugeVector = some (mn, mx) := by
  have hlen : hugeVector.length = 2147483650 := by
    unfold hugeVector
    rw [List.length_cons, List.length_cons, List.length_replicate]
  have hgt : 2147483647 < hugeVector.length := by
    rw [hlen]
    decide
  have hf : findMinMaxSequential hugeVector = none :=
    findMinMaxSequential_of_gt hugeVector hgt
  refine ⟨?_, hlen, counterValues_of_gt _ _ hgt, hf, ?_⟩
  · intro h
    rw [h] at hlen
    exact absurd hlen (by decide)
  · rintro ⟨mn, mx, h⟩
    rw [hf] at h
    exact Option.noConfusion h

/-- C4 amended: on every non-empty vector of at most `INT_MAX` elements
`findMinMaxSequential` returns a pair `(min_val, max_val)` whose members both occur in the
vector, with `min_val <= arr[k] <= max_val` at every index `k`, hence `min_val <= max_val`;
`[5, 3, 8, 1, 9, 2]` gives `(1, 9)` and `[4, 4, 4]` gives `(4, 4)`. -/
theorem findMinMaxSequential_correct (arr : List Int) (hne : arr ≠ [])
    (hsize : arr.length ≤ 2147483647) :
    (∃ mn mx, findMinMaxSequential arr = some (mn, mx) ∧ mn ∈ arr ∧ mx ∈ arr ∧
        (∀ k, k < arr.length → mn ≤ arr.getD k 0 ∧ arr.getD k 0 ≤ mx) ∧ mn ≤ mx) ∧
      findMinMaxSequential [5, 3, 8, 1, 9, 2] = some (1, 9) ∧
      findMinMaxSequential [4, 4, 4] = some (4, 4) := by
  obtain ⟨⟨mn, mx⟩, hr, h1, h2, h3⟩ := findMinMaxSequential_spec arr hne hsize
  refine ⟨⟨mn, mx, hr, h1, h2, ?_, ?_⟩, by decide, by decide⟩
  · intro k hk
    exact h3 _ ((mem_iff_getD arr _).mpr ⟨k, hk, rfl⟩)
  · exact (h3 _ h1).2

theorem findMinMaxSequential_correct_witness :
    ([5, 3, 8, 1, 9, 2] : List Int) ≠ [] ∧
      ([5, 3, 8, 1, 9, 2] : List Int).length ≤ 2147483647 ∧
      ∃ mn mx, findMinMaxSequential [5, 3, 8, 1, 9, 2] = some (mn, mx) ∧
        mn ∈ ([5, 3, 8, 1, 9, 2] : List Int) ∧ mx ∈ ([5, 3, 8, 1, 9, 2] : List Int) ∧
        (∀ k, k < ([5, 3, 8, 1, 9, 2] : List Int).length →
          mn ≤ ([5, 3, 8, 1, 9, 2] : List Int).getD k 0 ∧
          ([5, 3, 8, 1, 9, 2] : List Int).getD k 0 ≤ mx) ∧ mn ≤ mx :=
  ⟨by decide, by decide,
    (findMinMaxSequential_correct [5, 3, 8, 1, 9, 2] (by decide) (by decide)).1⟩

/-- C10 at the empty vector: `arr.size() - 1` is `2 ^ 64 - 1` in `size_t`, the test
`0 < 2 ^ 64 - 1` succeeds, and `isSorted` reads `arr[0]` and `arr[1]` outside the vector
instead of returning `true`; on a singleton the bound is `0` and it returns `true`. -/
theorem isSorted_empty_reads_out_of_bounds :
    (([] : List Int).length + SIZE_MOD - 1) % SIZE_MOD = 18446744073709551615 ∧
      toSizeT 0 < (([] : List Int).length + SIZE_MOD - 1) % SIZE_MOD ∧
      ([] : List Int)[toSizeT 0]? = none ∧
      isSorted [] = Outcome.outOfBounds ∧
      isSorted [] ≠ Outcome.value true ∧
      isSorted [7] = Outcome.value true := by
  refine ⟨by decide, by decide, by decide, by decide, by decide, by decide⟩

end ParallelMil
